import Mathlib

/-!
Verification of the search pipeline of `semantic_search_server.py`.

The per-request ranking pipeline (keyword boosting, stable re-sort, category
filter, project diversification, pagination, and the HTTP-level error
branches of the `/search` handler) is embedded as executable Lean
definitions.  External collaborators — the sentence-transformer embedding
model, the Faiss index and the cosine-similarity rescoring (source lines
100-131), and the NLTK Porter stemmer — are treated as opaque parameters:
the retrieval stage is a function `String → List (Int × ℚ)` producing the
similarity-sorted candidate list `sorted_results`, and the stemmer is a
function `String → String`.  Similarity scores and boost values are modelled
as rationals.
-/

namespace SemanticSearch

/-! ### Models of the Python primitives used by the handler -/

/-- Model of `str.lower()` on a single character (ASCII range, which covers
every string the handler manipulates). -/
def lowerChar (c : Char) : Char :=
  if 65 ≤ c.toNat ∧ c.toNat ≤ 90 then Char.ofNat (c.toNat + 32) else c

/-- Model of `str.lower()`. -/
def lowerStr (s : String) : String :=
  String.mk (s.data.map lowerChar)

/-- Helper for `pyWords`: splits a character list on whitespace, dropping
empty fragments, with `cur` the (reversed) current word. -/
def wordsAux : List Char → List Char → List String
  | [], cur => if cur = [] then [] else [String.mk cur.reverse]
  | c :: cs, cur =>
    if c.isWhitespace then
      (if cur = [] then wordsAux cs [] else String.mk cur.reverse :: wordsAux cs [])
    else wordsAux cs (c :: cur)

/-- Model of `s.lower().split()`: lowercase, then split on whitespace runs
with no empty words (source lines 135, 137-138). -/
def pyWords (s : String) : List String :=
  wordsAux (s.data.map lowerChar) []

/-- Helper for `pyIn`: infix test on character lists. -/
def infixAux (n : List Char) : List Char → Bool
  | [] => n.isEmpty
  | c :: cs => n.isPrefixOf (c :: cs) || infixAux n cs

/-- Model of the Python substring test `needle in hay`. -/
def pyIn (needle hay : String) : Bool :=
  needle.data.isEmpty || infixAux needle.data hay.data

/-- Numeric value of a digit list (helper for `pyParseInt`). -/
def digitsVal (cs : List Char) : Nat :=
  cs.foldl (fun a c => a * 10 + (c.toNat - 48)) 0

/-- Strip leading and trailing whitespace from a character list. -/
def trimChars (cs : List Char) : List Char :=
  ((cs.dropWhile Char.isWhitespace).reverse.dropWhile Char.isWhitespace).reverse

/-- Model of Python `int(s)` on strings: optional surrounding whitespace, an
optional sign, then one or more digits; anything else raises `ValueError`,
modelled as `none` (source line 167 with the handler's `except` at 169). -/
def pyParseInt (s : String) : Option Int :=
  match trimChars s.data with
  | [] => none
  | '-' :: rest =>
    if rest ≠ [] ∧ rest.all Char.isDigit then some (-(digitsVal rest : Int)) else none
  | '+' :: rest =>
    if rest ≠ [] ∧ rest.all Char.isDigit then some (digitsVal rest : Int) else none
  | l =>
    if l ≠ [] ∧ l.all Char.isDigit then some (digitsVal l : Int) else none

/-- Resolve one (possibly negative) Python slice endpoint against a list of
length `n`. -/
def pyIdx (n : Nat) (i : Int) : Nat :=
  if i < 0 then ((n : Int) + i).toNat else min i.toNat n

/-- Model of the Python slice `l[a:b]` with step 1 (source line 216). -/
def pySlice {α : Type} (l : List α) (a b : Int) : List α :=
  (l.take (pyIdx l.length b)).drop (pyIdx l.length a)

/-! ### Configuration constants (source lines 17-38) -/

/-- Source line 18: high boost for exact, non-generic stem matches. -/
def KEYWORD_BOOST_EXACT : ℚ := 1

/-- Source line 19 (`KEYWORD_BOOST_` followed by `PARTIAL` there): medium
boost for substring matches. -/
def KEYWORD_BOOST_PARTIAL_MATCH : ℚ := 1/2

/-- Source line 20: low boost for generic words. -/
def KEYWORD_BOOST_GENERIC : ℚ := 1/5

/-- Source line 23. -/
def GENERIC_WORDS : List String :=
  ["tool", "kit", "set", "supply", "supplies", "wire", "paste", "wick",
   "device", "instrument", "apparatus", "equipment", "implement", "module"]

/-- Source line 26. -/
def PROJECT_KEYWORDS : List String :=
  ["build", "make", "project", "kit", "materials for", "starter", "robot",
   "radio", "construct", "assemble", "create", "fabricate", "develop",
   "design", "craft", "implement", "integrate", "engineer", "prototype"]

/-- Source line 28. -/
def MAX_ITEMS_PER_CATEGORY : Nat := 2

/-- Source lines 31-38. -/
def PROJECT_CATEGORY_ORDER : List (List Int) :=
  [[1], [4], [6, 7], [2, 3, 8, 9, 10, 11], [5, 12], [13, 14]]

/-! ### Catalog snapshot (source lines 51-70) -/

/-- One row of the products table as loaded at startup: `product_id`,
`product_name`, `category_id` (nullable).  The embedding itself is consumed
only by the external retrieval stage and is not represented. -/
structure Product where
  pid : Int
  name : String
  category : Option Int
deriving DecidableEq

/-- The in-memory snapshot built at startup. -/
structure ServerState where
  products : List Product
deriving DecidableEq

/-- Model of `product_id_to_name.get(pid, "")` (source lines 69, 137). -/
def productName (st : ServerState) (pid : Int) : String :=
  match st.products.find? (fun p => p.pid == pid) with
  | some p => p.name
  | none => ""

/-- Model of `product_id_to_category.get(pid)` (source lines 68, 168, 182). -/
def categoryOf (st : ServerState) (pid : Int) : Option Int :=
  match st.products.find? (fun p => p.pid == pid) with
  | some p => p.category
  | none => none

/-- Source lines 73-80: the Faiss index exists iff at least one product
embedding was loaded. -/
def indexLoaded (st : ServerState) : Bool :=
  !st.products.isEmpty

/-! ### Keyword boosting (source lines 133-157) -/

/-- Per-query-word boost: scan the candidate's name words in order; at the
first word with an equal stem give the generic or exact boost, otherwise at
the first word related by substring containment give the medium boost, and
stop scanning either way (the `break` at lines 151 and 155); give 0 if no
name word matches (source lines 142-155). -/
def wordBoost (stem : String → String) (qWord : String) : List String → ℚ
  | [] => 0
  | pWord :: rest =>
    if stem qWord = stem pWord then
      if GENERIC_WORDS.contains qWord then KEYWORD_BOOST_GENERIC
      else KEYWORD_BOOST_EXACT
    else if pyIn qWord pWord || pyIn pWord qWord then KEYWORD_BOOST_PARTIAL_MATCH
    else wordBoost stem qWord rest

/-- Sum of the per-word boosts for one candidate (source lines 140-155). -/
def totalBoost (stem : String → String) (queryWords nameWords : List String) : ℚ :=
  (queryWords.map (fun w => wordBoost stem w nameWords)).sum

/-- Source lines 134-157: map each candidate `(pid, sim)` to
`(pid, sim + total_boost)` using the lowercased, tokenized query and
product name. -/
def boostResults (stem : String → String) (st : ServerState) (query : String)
    (l : List (Int × ℚ)) : List (Int × ℚ) :=
  l.map (fun c => (c.1, c.2 + totalBoost stem (pyWords query) (pyWords (productName st c.1))))

/-! ### Stable descending re-sort (source line 160)

Python's `sorted(..., key=lambda x: x[1], reverse=True)` is a stable sort:
elements with equal keys keep their relative order.  It is embedded as a
stable insertion sort, which is extensionally the unique stable
descending-by-score sort. -/

/-- Insert `x` after every element of strictly greater score and before the
first element of equal or smaller score. -/
def insertDesc (x : Int × ℚ) : List (Int × ℚ) → List (Int × ℚ)
  | [] => [x]
  | y :: ys => if y.2 ≤ x.2 then x :: y :: ys else y :: insertDesc x ys

/-- Stable sort, descending by score (source line 160). -/
def sortDesc : List (Int × ℚ) → List (Int × ℚ)
  | [] => []
  | x :: xs => insertDesc x (sortDesc xs)

/-! ### Project-query detection and diversification (source lines 173-211) -/

/-- Source line 174: the query (lowercased) contains at least one project
trigger substring. -/
def isProjectQuery (query : String) : Bool :=
  PROJECT_KEYWORDS.any (fun k => pyIn k (lowerStr query))

/-- Source lines 180-185: the per-category bucket of a candidate list,
preserving relative order (the dict-of-lists `results_by_category`,
restricted to an integer key `c` as read by `results_by_category.get`). -/
def bucket (catOf : Int → Option Int) (l : List (Int × ℚ)) (c : Int) : List (Int × ℚ) :=
  l.filter (fun r => catOf r.1 == some c)

/-- Source lines 195-199 for one category: walk the first
`MAX_ITEMS_PER_CATEGORY` bucket entries, emitting those whose pid is not in
`seen` and recording each emitted pid. -/
def takeCat (seen : List Int) : List (Int × ℚ) → List (Int × ℚ) × List Int
  | [] => ([], seen)
  | x :: xs =>
    if seen.contains x.1 then takeCat seen xs
    else
      let p := takeCat (x.1 :: seen) xs
      (x :: p.1, p.2)

/-- Source line 192: walk the category ids of one group in order. -/
def walkCats (bucket : Int → List (Int × ℚ)) (seen : List Int) :
    List Int → List (Int × ℚ) × List Int
  | [] => ([], seen)
  | c :: cs =>
    let p := takeCat seen ((bucket c).take MAX_ITEMS_PER_CATEGORY)
    let q := walkCats bucket p.2 cs
    (p.1 ++ q.1, q.2)

/-- Source line 191: walk the ordered category groups (tiers). -/
def walkTiers (bucket : Int → List (Int × ℚ)) (seen : List Int) :
    List (List Int) → List (Int × ℚ) × List Int
  | [] => ([], seen)
  | g :: gs =>
    let p := walkCats bucket seen g
    let q := walkTiers bucket p.2 gs
    (p.1 ++ q.1, q.2)

/-- The curated head `top_results` together with the final `seen_product_ids`
(source lines 187-199). -/
def diversifyHead (catOf : Int → Option Int) (l : List (Int × ℚ)) :
    List (Int × ℚ) × List Int :=
  walkTiers (bucket catOf l) [] PROJECT_CATEGORY_ORDER

/-- Source lines 176-208: the full diversifier — curated head followed by
all remaining candidates in their incoming order. -/
def diversify (catOf : Int → Option Int) (l : List (Int × ℚ)) : List (Int × ℚ) :=
  let p := diversifyHead catOf l
  p.1 ++ l.filter (fun r => !p.2.contains r.1)

/-! ### Request and response model (source lines 83-98, 213-228) -/

/-- The optional `category_id` field of the JSON request body: absent, a
JSON integer, or a JSON string. -/
inductive CatParam where
  | absent
  | int (n : Int)
  | str (s : String)
deriving DecidableEq

/-- Python truthiness of the field as tested by `if category_id:` at source
line 164 (`None`, `0` and `""` are falsy). -/
def CatParam.truthy : CatParam → Bool
  | .absent => false
  | .int n => n != 0
  | .str s => s != ""

/-- Model of `int(category_id)` at source line 167: the identity on an
integer, string parsing on a string. -/
def CatParam.parse : CatParam → Option Int
  | .absent => none
  | .int n => some n
  | .str s => pyParseInt s

/-- Parsed JSON request body (source lines 88-97); `page` and `limit`
default to 1 and 10 when absent. -/
structure SearchRequest where
  q : Option String := none
  categoryId : CatParam := .absent
  page : Option Int := none
  limit : Option Int := none
deriving DecidableEq

/-- The handler's HTTP response: `jsonify({product_ids, total})` with
status 200, or `jsonify({error}), code`. -/
inductive SearchResponse where
  | ok (productIds : List Int) (total : Nat)
  | err (status : Nat) (msg : String)
deriving DecidableEq

/-- HTTP status of a response (Flask's default for a plain `jsonify` body is
200). -/
def SearchResponse.status : SearchResponse → Nat
  | .ok _ _ => 200
  | .err c _ => c

/-! ### The pipeline after retrieval (source lines 133-213) -/

/-- Everything between the retrieval stage and pagination: boost, stable
re-sort, then either the category filter (source lines 163-171) or the
conditional diversifier (source lines 173-211). -/
def finalResults (st : ServerState) (stem : String → String) (query : String)
    (cat : CatParam) (retrieved : List (Int × ℚ)) : List (Int × ℚ) :=
  let sorted2 := sortDesc (boostResults stem st query retrieved)
  if cat.truthy then
    match cat.parse with
    | some n => sorted2.filter (fun r => categoryOf st r.1 == some n)
    | none => sorted2
  else if isProjectQuery query then diversify (categoryOf st) sorted2
  else sorted2

/-- The `/search` handler (source lines 83-228).  `retrieve` abstracts the
embedding model, the Faiss lookup and the cosine rescoring (lines 100-131):
it yields the similarity-sorted candidate list `sorted_results`.  `stem`
abstracts the NLTK Porter stemmer. -/
def search (st : ServerState) (retrieve : String → List (Int × ℚ))
    (stem : String → String) (req : SearchRequest) : SearchResponse :=
  if !indexLoaded st then
    .err 503 "Search is disabled because no product embeddings are loaded."
  else
    match req.q with
    | none => .err 400 "Query q is required"
    | some query =>
      if query = "" then .err 400 "Query q is required"
      else
        let page := req.page.getD 1
        let limit := req.limit.getD 10
        let offset := (page - 1) * limit
        let results := finalResults st stem query req.categoryId (retrieve query)
        .ok ((pySlice results offset (offset + limit)).map (fun r => r.1)) results.length

/-! ### Derived characterizations of the boosting rule table (source lines 145-155) -/

/-- Some rule of the boosting table applies to the pair
`(query word, name word)`: equal stems, or substring containment in either
direction. -/
def matchesRule (stem : String → String) (qWord pWord : String) : Bool :=
  (stem qWord == stem pWord) || pyIn qWord pWord || pyIn pWord qWord

/-- The boost contributed by the first matching rule for one
`(query word, name word)` pair, read off the rule table at source lines
145-155: stem match of a generic / non-generic query word, else substring
containment, else nothing. -/
def ruleBoost (stem : String → String) (qWord pWord : String) : ℚ :=
  if stem qWord = stem pWord then
    if GENERIC_WORDS.contains qWord then KEYWORD_BOOST_GENERIC
    else KEYWORD_BOOST_EXACT
  else if pyIn qWord pWord || pyIn pWord qWord then KEYWORD_BOOST_PARTIAL_MATCH
  else 0

/-! ### Concrete instances used as witnesses and counterexamples -/

/-- Modelled external stemmer.  The NLTK Porter stemmer is a third-party
library, outside this repository; on the words appearing in the
spec's boost-tiering example it behaves as the spec's glossary describes
("soldering" → "solder"), and it fixes "solder", "wire" and "kit". -/
def stemEx (w : String) : String := if w = "soldering" then "solder" else w

/-- Trivial stemmer (identity) for runs where stemming is irrelevant. -/
def stemId : String → String := fun w => w

/-- Two-product snapshot: pid 1 ("alpha") in category 2, pid 2 ("beta") in
category 1.  The names share no words or substrings with the query "kit",
so boosting is zero on them. -/
def stEx : ServerState := ⟨[⟨1, "alpha", some 2⟩, ⟨2, "beta", some 1⟩]⟩

/-- Fixed retrieval stage for the two-product snapshot: pid 1 ahead of
pid 2 by similarity. -/
def retrEx : String → List (Int × ℚ) := fun _ => [(1, 9), (2, 8)]

/-- Category assignment for the diversifier examples: candidates spanning
exactly the categories 1, 4, 6 and 7. -/
def catOfDiv : Int → Option Int := fun pid =>
  if pid = 101 then some 7 else if pid = 102 then some 1 else if pid = 103 then some 1
  else if pid = 104 then some 4 else if pid = 105 then some 1 else if pid = 106 then some 6
  else if pid = 107 then some 7 else if pid = 108 then some 4 else if pid = 109 then some 4
  else none

/-- Score-sorted candidate list for the diversifier examples: category 1
holds pids 102, 103, 105; category 4 holds 104, 108, 109; category 6 holds
106; category 7 holds 101, 107. -/
def lDiv : List (Int × ℚ) :=
  [(101, 9), (102, 8), (103, 7), (104, 6), (105, 5), (106, 4), (107, 3), (108, 2), (109, 1)]

/-! ## Theorems

First the supporting lemmas about the embedded stages, then one theorem per
claim (with witnesses and counterexamples where required). -/

/-! ### The stable descending sort -/

theorem insertDesc_perm (x : Int × ℚ) (l : List (Int × ℚ)) :
    (insertDesc x l).Perm (x :: l) := by
  induction l with
  | nil => exact List.Perm.refl _
  | cons y ys ih =>
    by_cases h : y.2 ≤ x.2
    · simp [insertDesc, h]
    · simp only [insertDesc, if_neg h]
      exact (ih.cons y).trans (List.Perm.swap x y ys)

theorem sortDesc_perm (l : List (Int × ℚ)) : (sortDesc l).Perm l := by
  induction l with
  | nil => exact List.Perm.refl _
  | cons x xs ih => exact (insertDesc_perm x (sortDesc xs)).trans (ih.cons x)

theorem insertDesc_pairwise (x : Int × ℚ) {l : List (Int × ℚ)}
    (h : l.Pairwise (fun a b => b.2 ≤ a.2)) :
    (insertDesc x l).Pairwise (fun a b => b.2 ≤ a.2) := by
  induction l with
  | nil => simp [insertDesc]
  | cons y ys ih =>
    rw [List.pairwise_cons] at h
    by_cases hyx : y.2 ≤ x.2
    · simp only [insertDesc, if_pos hyx]
      refine List.Pairwise.cons ?_ (List.Pairwise.cons h.1 h.2)
      intro z hz
      rcases List.mem_cons.mp hz with rfl | hz'
      · exact hyx
      · exact le_trans (h.1 z hz') hyx
    · simp only [insertDesc, if_neg hyx]
      refine List.Pairwise.cons ?_ (ih h.2)
      intro z hz
      have hz' := (insertDesc_perm x ys).mem_iff.mp hz
      rcases List.mem_cons.mp hz' with rfl | hz''
      · exact (not_le.mp hyx).le
      · exact h.1 z hz''

theorem sortDesc_pairwise (l : List (Int × ℚ)) :
    (sortDesc l).Pairwise (fun a b => b.2 ≤ a.2) := by
  induction l with
  | nil => simp [sortDesc]
  | cons x xs ih => exact insertDesc_pairwise x ih

theorem filter_insertDesc (x : Int × ℚ) {l : List (Int × ℚ)}
    (h : l.Pairwise (fun a b => b.2 ≤ a.2)) (s : ℚ) :
    (insertDesc x l).filter (fun z => z.2 == s) =
      if x.2 == s then x :: l.filter (fun z => z.2 == s)
      else l.filter (fun z => z.2 == s) := by
  induction l with
  | nil =>
    by_cases hx : x.2 == s <;>
      simp [insertDesc, List.filter_cons, hx]
  | cons y ys ih =>
    rw [List.pairwise_cons] at h
    by_cases hyx : y.2 ≤ x.2
    · by_cases hx : x.2 == s <;>
        simp [insertDesc, if_pos hyx, List.filter_cons, hx]
    · simp only [insertDesc, if_neg hyx, List.filter_cons]
      rw [ih h.2]
      by_cases hx : x.2 == s
      · have hxs : x.2 = s := by exact_mod_cast beq_iff_eq.mp hx
        have hy : ¬(y.2 == s) = true := by
          have hlt : x.2 < y.2 := not_le.mp hyx
          simp only [beq_iff_eq]
          intro hys
          exact absurd (hxs.trans hys.symm) (ne_of_lt hlt)
        simp [hx, hy]
      · simp [hx]

/-- C7 — the post-boost re-sort (source line 160) is a stable descending
sort: it permutes the boosted list, it is sorted descending by
`finalScore`, and for every score value the candidates carrying that score
appear in exactly the order they had before the re-sort (hence every pair
of equal-`finalScore` candidates keeps its relative order from the
semantic-score-sorted list). -/
theorem C7_resort_stable (stem : String → String) (st : ServerState) (query : String)
    (l : List (Int × ℚ)) (s : ℚ) :
    (sortDesc (boostResults stem st query l)).Perm (boostResults stem st query l) ∧
    (sortDesc (boostResults stem st query l)).Pairwise (fun a b => b.2 ≤ a.2) ∧
    (sortDesc (boostResults stem st query l)).filter (fun z => z.2 == s) =
      (boostResults stem st query l).filter (fun z => z.2 == s) := by
  refine ⟨sortDesc_perm _, sortDesc_pairwise _, ?_⟩
  induction boostResults stem st query l with
  | nil => rfl
  | cons x xs ih =>
    simp only [sortDesc]
    rw [filter_insertDesc x (sortDesc_pairwise xs) s, ih]
    by_cases hx : x.2 == s <;> simp [List.filter_cons, hx]

/-! ### The keyword booster -/

theorem wordBoost_nonneg (stem : String → String) (qw : String) (pws : List String) :
    0 ≤ wordBoost stem qw pws := by
  induction pws with
  | nil => simp [wordBoost]
  | cons p ps ih =>
    simp only [wordBoost]
    split
    · split <;> norm_num [KEYWORD_BOOST_GENERIC, KEYWORD_BOOST_EXACT]
    · split
      · norm_num [KEYWORD_BOOST_PARTIAL_MATCH]
      · exact ih

theorem totalBoost_nonneg (stem : String → String) (qws pws : List String) :
    0 ≤ totalBoost stem qws pws := by
  apply List.sum_nonneg
  intro x hx
  obtain ⟨w, _, rfl⟩ := List.mem_map.mp hx
  exact wordBoost_nonneg stem w pws

theorem matchesRule_false_parts {stem : String → String} {qw pw : String}
    (h : matchesRule stem qw pw = false) :
    stem qw ≠ stem pw ∧ pyIn qw pw = false ∧ pyIn pw qw = false := by
  simp only [matchesRule, Bool.or_eq_false_iff, beq_eq_false_iff_ne, ne_eq] at h
  exact ⟨h.1.1, h.1.2, h.2⟩

theorem wordBoost_of_no_match (stem : String → String) (qw : String) {pws : List String}
    (h : ∀ p ∈ pws, matchesRule stem qw p = false) :
    wordBoost stem qw pws = 0 := by
  induction pws with
  | nil => rfl
  | cons p ps ih =>
    obtain ⟨h1, h2, h3⟩ := matchesRule_false_parts (h p (List.mem_cons_self p ps))
    simp only [wordBoost, if_neg h1, h2, h3, Bool.or_self, Bool.false_eq_true, if_false]
    exact ih fun p' hp' => h p' (List.mem_cons_of_mem _ hp')

theorem wordBoost_append_of_no_match (stem : String → String) (qw : String) {pre : List String}
    (rest : List String) (h : ∀ p ∈ pre, matchesRule stem qw p = false) :
    wordBoost stem qw (pre ++ rest) = wordBoost stem qw rest := by
  induction pre with
  | nil => rfl
  | cons p ps ih =>
    obtain ⟨h1, h2, h3⟩ := matchesRule_false_parts (h p (List.mem_cons_self p ps))
    simp only [List.cons_append, wordBoost, if_neg h1, h2, h3, Bool.or_self,
      Bool.false_eq_true, if_false]
    exact ih fun p' hp' => h p' (List.mem_cons_of_mem _ hp')

theorem wordBoost_cons_of_match (stem : String → String) (qw pw : String) (rest : List String)
    (h : matchesRule stem qw pw = true) :
    wordBoost stem qw (pw :: rest) = ruleBoost stem qw pw := by
  by_cases h1 : stem qw = stem pw
  · simp [wordBoost, ruleBoost, h1]
  · have h2 : (pyIn qw pw || pyIn pw qw) = true := by
      simpa [matchesRule, h1] using h
    simp [wordBoost, ruleBoost, h1, h2]

/-- C8 — boosts are never negative, so every candidate's `finalScore` is at
least its `semanticScore` (with the product id unchanged); and a candidate
with zero keyword overlap (no rule of the table matches any query word
against any of its name words) keeps `finalScore = semanticScore`
exactly. -/
theorem C8_boost_nonneg_nonregression (stem : String → String) (st : ServerState)
    (query : String) (l : List (Int × ℚ)) (qws pws : List String) :
    0 ≤ totalBoost stem qws pws ∧
    List.Forall₂ (fun a b => b.1 = a.1 ∧ a.2 ≤ b.2) l (boostResults stem st query l) ∧
    ((∀ qw ∈ qws, ∀ pw ∈ pws, matchesRule stem qw pw = false) →
      totalBoost stem qws pws = 0) ∧
    (∀ pid : Int, ∀ sc : ℚ,
      (∀ qw ∈ pyWords query, ∀ pw ∈ pyWords (productName st pid),
        matchesRule stem qw pw = false) →
      boostResults stem st query [(pid, sc)] = [(pid, sc)]) := by
  refine ⟨totalBoost_nonneg stem qws pws, ?_, ?_, ?_⟩
  · induction l with
    | nil => exact List.Forall₂.nil
    | cons c cs ih =>
      exact List.Forall₂.cons ⟨rfl, le_add_of_nonneg_right (totalBoost_nonneg _ _ _)⟩ ih
  · intro h
    apply List.sum_eq_zero
    intro x hx
    obtain ⟨w, hw, rfl⟩ := List.mem_map.mp hx
    exact wordBoost_of_no_match stem w fun p hp => h w hw p hp
  · intro pid sc h
    have hz : totalBoost stem (pyWords query) (pyWords (productName st pid)) = 0 := by
      apply List.sum_eq_zero
      intro x hx
      obtain ⟨w, hw, rfl⟩ := List.mem_map.mp hx
      exact wordBoost_of_no_match stem w fun p hp => h w hw p hp
    simp [boostResults, hz]

/-- Witness for C8 at concrete inputs: the query "kit" against the catalog
name "alpha" has zero overlap, so the boost is zero and the candidate is
returned unchanged. -/
theorem C8_witness :
    totalBoost stemId ["kit"] ["alpha"] = 0 ∧
    boostResults stemId stEx "kit" [(1, 9)] = [(1, 9)] := by
  have h := C8_boost_nonneg_nonregression stemId stEx "kit" [(1, 9)] ["kit"] ["alpha"]
  exact ⟨h.2.2.1 (by decide), h.2.2.2 1 9 (by decide)⟩

/-- C4 (amended) — per query word the booster scans the candidate's name
words in order and applies the first matching rule of the table
(`ruleBoost`), then stops scanning for that query word; a query word with
no matching name word contributes 0; the per-word boosts are summed and
added to the semantic score.  In the spec's example — query
"soldering kit" against the name "Solder Wire" — "soldering" stem-matches
"solder" for +1.0, but "kit" matches no name word under any rule, so the
total boost is 1.0 (not 1.2 as the spec's example claims). -/
theorem C4_first_match_boost (stem : String → String) (st : ServerState) (query : String)
    (l : List (Int × ℚ)) (qw pw : String) (pre post : List String) :
    ((∀ p ∈ pre, matchesRule stem qw p = false) → matchesRule stem qw pw = true →
      wordBoost stem qw (pre ++ pw :: post) = ruleBoost stem qw pw) ∧
    ((∀ p ∈ pre, matchesRule stem qw p = false) → wordBoost stem qw pre = 0) ∧
    boostResults stem st query l =
      l.map (fun c =>
        (c.1, c.2 + totalBoost stem (pyWords query) (pyWords (productName st c.1)))) ∧
    totalBoost stemEx (pyWords "soldering kit") (pyWords "Solder Wire") =
      KEYWORD_BOOST_EXACT := by
  refine ⟨?_, ?_, rfl, ?_⟩
  · intro hpre hm
    rw [wordBoost_append_of_no_match stem qw _ hpre, wordBoost_cons_of_match stem qw pw post hm]
  · intro hpre
    exact wordBoost_of_no_match stem qw hpre
  · with_unfolding_all decide

/-- Witness for C4 at a concrete input: for the query word "soldering" the
first (and only) matching name word of "solder wire" is "solder", whose
rule is the exact non-generic stem match worth +1.0. -/
theorem C4_witness :
    wordBoost stemEx "soldering" ([] ++ "solder" :: ["wire"]) = ruleBoost stemEx "soldering" "solder" ∧
    ruleBoost stemEx "soldering" "solder" = KEYWORD_BOOST_EXACT := by
  refine ⟨(C4_first_match_boost stemEx stEx "" [] "soldering" "solder" [] ["wire"]).1
    (by simp) (by decide), ?_⟩
  with_unfolding_all decide

/-- Counterexample for C4 as stated: the claim's example asserts that the
query "soldering kit" against the product name "Solder Wire" yields total
boost 1.2; the code yields 1.0, because "kit" neither stem-matches nor is
in a substring relation with "solder" or "wire". -/
theorem C4_counterexample :
    totalBoost stemEx (pyWords "soldering kit") (pyWords "Solder Wire") = 1 ∧
    ¬ totalBoost stemEx (pyWords "soldering kit") (pyWords "Solder Wire") = 6/5 := by
  constructor
  · with_unfolding_all decide
  · with_unfolding_all decide

/-! ### The handler's control flow -/

theorem search_eq_ok (st : ServerState) (retr : String → List (Int × ℚ))
    (stem : String → String) (req : SearchRequest) (q : String)
    (hidx : indexLoaded st = true) (hq : req.q = some q) (hne : q ≠ "") :
    search st retr stem req =
      .ok ((pySlice (finalResults st stem q req.categoryId (retr q))
              ((req.page.getD 1 - 1) * req.limit.getD 10)
              ((req.page.getD 1 - 1) * req.limit.getD 10 + req.limit.getD 10)).map
            (fun r => r.1))
          (finalResults st stem q req.categoryId (retr q)).length := by
  simp [search, hidx, hq, hne]

theorem pySlice_eq_nil {α : Type} (l : List α) (a b : Int) (h0 : 0 ≤ a)
    (h : (l.length : Int) ≤ a) : pySlice l a b = [] := by
  unfold pySlice pyIdx
  rw [if_neg (not_lt.mpr h0)]
  have h1 : l.length ≤ a.toNat := by omega
  rw [min_eq_right h1]
  exact List.drop_eq_nil_of_le (by rw [List.length_take]; exact min_le_right _ _)

theorem pySlice_sublist {α : Type} (l : List α) (a b : Int) :
    (pySlice l a b).Sublist l :=
  ((List.drop_sublist _ _).trans (List.take_sublist _ _))

/-- C9 — when no product embeddings were loaded the index is `None` and
every request is answered with HTTP 503 before any query embedding or
vector search happens: the response is the fixed error, independent of the
retrieval stage. -/
theorem C9_unavailable_index (st : ServerState) (retrieve retrieveB : String → List (Int × ℚ))
    (stem : String → String) (req : SearchRequest) (h : st.products = []) :
    search st retrieve stem req =
      .err 503 "Search is disabled because no product embeddings are loaded." ∧
    (search st retrieve stem req).status = 503 ∧
    search st retrieve stem req = search st retrieveB stem req := by
  refine ⟨?_, ?_, ?_⟩ <;> simp [search, indexLoaded, h, SearchResponse.status]

/-- Witness for C9: the empty snapshot is answered 503. -/
theorem C9_witness :
    search ⟨[]⟩ retrEx stemId { q := some "kit" } =
      .err 503 "Search is disabled because no product embeddings are loaded." :=
  (C9_unavailable_index ⟨[]⟩ retrEx retrEx stemId { q := some "kit" } rfl).1

/-- C10 — a valid request whose offset `(page-1)*limit` is at least the
length of the final ordered list succeeds with an empty id list and with
`total` still the full pre-slice length: paging past the last page is not
an error. -/
theorem C10_page_past_end (st : ServerState) (retr : String → List (Int × ℚ))
    (stem : String → String) (req : SearchRequest) (q : String) (p m : Int)
    (hidx : indexLoaded st = true) (hq : req.q = some q) (hne : q ≠ "")
    (hp : req.page = some p) (hm : req.limit = some m) (h1 : 1 ≤ p) (h2 : 1 ≤ m)
    (hoff : ((finalResults st stem q req.categoryId (retr q)).length : Int) ≤ (p - 1) * m) :
    search st retr stem req =
      .ok [] (finalResults st stem q req.categoryId (retr q)).length := by
  rw [search_eq_ok st retr stem req q hidx hq hne, hp, hm]
  have h0 : (0 : Int) ≤ (p - 1) * m := mul_nonneg (by omega) (by omega)
  rw [Option.getD_some, Option.getD_some,
    pySlice_eq_nil _ ((p - 1) * m) ((p - 1) * m + m) h0 hoff]
  rfl

/-- Witness for C10: two results in total, page 5 with limit 10 → offset 40
is past the end, the response is 200 with no ids and `total = 2`. -/
theorem C10_witness :
    search stEx retrEx stemId { q := some "kit", page := some 5, limit := some 10 } =
      .ok [] (finalResults stEx stemId "kit" CatParam.absent (retrEx "kit")).length :=
  C10_page_past_end stEx retrEx stemId _ "kit" 5 10 rfl rfl (by decide) rfl rfl
    (by decide) (by decide) (by with_unfolding_all decide)

/-- C1 (amended) — the handler never validates `page` or `limit`: for
every value of both fields (present or absent, and in particular for
`page < 1` or `limit < 1`) the request is not rejected; the whole pipeline
runs and the handler returns HTTP 200 with the Python slice
`results[(page-1)*limit : (page-1)*limit + limit]` of the final list and
`total` equal to its full length. -/
theorem C1_no_page_limit_validation (st : ServerState)
    (retr : String → List (Int × ℚ)) (stem : String → String) (req : SearchRequest)
    (q : String) (hidx : indexLoaded st = true) (hq : req.q = some q) (hne : q ≠ "") :
    search st retr stem req =
      .ok ((pySlice (finalResults st stem q req.categoryId (retr q))
              ((req.page.getD 1 - 1) * req.limit.getD 10)
              ((req.page.getD 1 - 1) * req.limit.getD 10 + req.limit.getD 10)).map
            (fun r => r.1))
          (finalResults st stem q req.categoryId (retr q)).length ∧
    (search st retr stem req).status = 200 := by
  have h := search_eq_ok st retr stem req q hidx hq hne
  exact ⟨h, by rw [h]; rfl⟩

/-- Witness for C1's amended statement at the two non-positive cases the
original claim singles out: `page = 0` (limit 5) and `limit = 0`
(page 3, page ≥ 1) — both answered 200, never 400. -/
theorem C1_witness :
    search stEx retrEx stemId { q := some "kit", page := some 0, limit := some 5 } =
      .ok [] 2 ∧
    (search stEx retrEx stemId { q := some "kit", page := some 0, limit := some 5 }).status
      = 200 ∧
    search stEx retrEx stemId { q := some "kit", page := some 3, limit := some 0 } =
      .ok [] 2 ∧
    (search stEx retrEx stemId { q := some "kit", page := some 3, limit := some 0 }).status
      = 200 := by
  have h1 := C1_no_page_limit_validation stEx retrEx stemId
    { q := some "kit", page := some 0, limit := some 5 } "kit" rfl rfl (by decide)
  have h2 := C1_no_page_limit_validation stEx retrEx stemId
    { q := some "kit", page := some 3, limit := some 0 } "kit" rfl rfl (by decide)
  refine ⟨h1.1.trans ?_, h1.2, h2.1.trans ?_, h2.2⟩
  · with_unfolding_all decide
  · with_unfolding_all decide

/-- Counterexample for C1 as stated: the claim says a request with
`page < 1` is rejected with HTTP 400 before any computation; at `page = 0`
the handler instead runs the pipeline and answers 200 (here with an empty
slice, because the offset is negative). -/
theorem C1_counterexample :
    search stEx retrEx stemId { q := some "kit", page := some 0 } = .ok [] 2 ∧
    (search stEx retrEx stemId { q := some "kit", page := some 0 }).status = 200 := by
  constructor
  · with_unfolding_all decide
  · with_unfolding_all decide

/-- C2 (amended) — a present-but-unparseable `category_id` splits on
Python truthiness.  If it is truthy (any string other than `""`), the
handler takes the filter branch, the parse failure is swallowed
(`except: pass`) leaving the list unfiltered, but the `else` branch
holding the ProjectDiversifier is skipped: the response is the plain
`finalScore`-sorted list, never the diversified one, even for project
queries.  The empty string — present and unparseable but falsy — instead
behaves exactly as if no `category_id` had been sent (the diversifier
remains eligible). -/
theorem C2_unparseable_category (st : ServerState)
    (retr : String → List (Int × ℚ)) (stem : String → String) (req : SearchRequest)
    (q : String) (hidx : indexLoaded st = true) (hq : req.q = some q) (hne : q ≠ "") :
    (req.categoryId.truthy = true → req.categoryId.parse = none →
      search st retr stem req =
        .ok ((pySlice (sortDesc (boostResults stem st q (retr q)))
                ((req.page.getD 1 - 1) * req.limit.getD 10)
                ((req.page.getD 1 - 1) * req.limit.getD 10 + req.limit.getD 10)).map
              (fun r => r.1))
            (sortDesc (boostResults stem st q (retr q))).length) ∧
    (req.categoryId = .str "" →
      search st retr stem req =
        search st retr stem { req with categoryId := .absent }) := by
  constructor
  · intro ht hparse
    rw [search_eq_ok st retr stem req q hidx hq hne]
    have hfr : finalResults st stem q req.categoryId (retr q) =
        sortDesc (boostResults stem st q (retr q)) := by
      simp [finalResults, ht, hparse]
    rw [hfr]
  · intro hcat
    rw [search_eq_ok st retr stem req q hidx hq hne,
      search_eq_ok st retr stem { req with categoryId := .absent } q hidx hq hne, hcat]
    have hfr : finalResults st stem q (CatParam.str "") (retr q) =
        finalResults st stem q CatParam.absent (retr q) := rfl
    rw [hfr]

/-- Witness for C2's amended statement: category id "abc" (truthy,
unparseable) with the project query "kit" returns the undiversified order
`[1, 2]`, while category id "" (falsy, unparseable) behaves exactly as an
absent category id. -/
theorem C2_witness :
    search stEx retrEx stemId { q := some "kit", categoryId := .str "abc" } =
      .ok [1, 2] 2 ∧
    search stEx retrEx stemId { q := some "kit", categoryId := .str "" } =
      search stEx retrEx stemId { q := some "kit", categoryId := .absent } := by
  constructor
  · rw [(C2_unparseable_category stEx retrEx stemId
      { q := some "kit", categoryId := .str "abc" } "kit" rfl rfl (by decide)).1
      (by decide) (by decide)]
    with_unfolding_all decide
  · exact (C2_unparseable_category stEx retrEx stemId
      { q := some "kit", categoryId := .str "" } "kit" rfl rfl (by decide)).2 rfl

/-- Counterexample for C2 as stated: with the project query "kit",
`category_id = "abc"` yields `[1, 2]` (diversifier skipped), while the same
request without `category_id` yields `[2, 1]` (diversifier applied) — the
unparseable case does not behave as if no `category_id` had been sent. -/
theorem C2_counterexample :
    search stEx retrEx stemId { q := some "kit", categoryId := .str "abc" } = .ok [1, 2] 2 ∧
    search stEx retrEx stemId { q := some "kit" } = .ok [2, 1] 2 ∧
    SearchResponse.ok [1, 2] 2 ≠ SearchResponse.ok [2, 1] 2 := by
  refine ⟨?_, ?_, ?_⟩
  · with_unfolding_all decide
  · with_unfolding_all decide
  · decide

/-- C3 (amended) — when `category_id` is present, truthy (a nonzero JSON
integer, or a nonempty string — including the string "0"), and parses as
the integer `n`, exactly the candidates in category `n` are retained:
every returned id belongs to category `n`, `total` counts only matching
candidates, and the ProjectDiversifier is skipped.  (The JSON integer `0`
is falsy and is instead treated as if no `category_id` had been sent.) -/
theorem C3_truthy_category_filter (st : ServerState) (retr : String → List (Int × ℚ))
    (stem : String → String) (req : SearchRequest) (q : String) (n : Int)
    (hidx : indexLoaded st = true) (hq : req.q = some q) (hne : q ≠ "")
    (ht : req.categoryId.truthy = true) (hparse : req.categoryId.parse = some n) :
    search st retr stem req =
      .ok ((pySlice ((sortDesc (boostResults stem st q (retr q))).filter
              (fun r => categoryOf st r.1 == some n))
              ((req.page.getD 1 - 1) * req.limit.getD 10)
              ((req.page.getD 1 - 1) * req.limit.getD 10 + req.limit.getD 10)).map
            (fun r => r.1))
          ((sortDesc (boostResults stem st q (retr q))).filter
              (fun r => categoryOf st r.1 == some n)).length ∧
    (∀ pid ∈ ((pySlice ((sortDesc (boostResults stem st q (retr q))).filter
              (fun r => categoryOf st r.1 == some n))
              ((req.page.getD 1 - 1) * req.limit.getD 10)
              ((req.page.getD 1 - 1) * req.limit.getD 10 + req.limit.getD 10)).map
            (fun r => r.1)),
      categoryOf st pid = some n) ∧
    ((sortDesc (boostResults stem st q (retr q))).filter
        (fun r => categoryOf st r.1 == some n)).length =
      (sortDesc (boostResults stem st q (retr q))).countP
        (fun r => categoryOf st r.1 == some n) := by
  have hfr : finalResults st stem q req.categoryId (retr q) =
      (sortDesc (boostResults stem st q (retr q))).filter
        (fun r => categoryOf st r.1 == some n) := by
    simp [finalResults, ht, hparse]
  refine ⟨?_, ?_, (List.countP_eq_length_filter _ _).symm⟩
  · rw [search_eq_ok st retr stem req q hidx hq hne, hfr]
  · intro pid hpid
    obtain ⟨r, hr, rfl⟩ := List.mem_map.mp hpid
    have hr' := (pySlice_sublist _ _ _).subset hr
    have hmem := List.of_mem_filter hr'
    exact beq_iff_eq.mp hmem

/-- Witness for C3's amended statement: filtering on category 1 returns
only pid 2 and `total = 1`. -/
theorem C3_witness :
    search stEx retrEx stemId { q := some "kit", categoryId := .int 1 } = .ok [2] 1 := by
  rw [(C3_truthy_category_filter stEx retrEx stemId
    { q := some "kit", categoryId := .int 1 } "kit" 1 rfl rfl (by decide) (by decide)
    rfl).1]
  with_unfolding_all decide

/-- Counterexample for C3 as stated: for the JSON integer `category_id = 0`
— which parses as the integer 0 — the filter is not applied at all: the
project query "kit" is diversified and returns pid 2, whose category is 1,
not 0, and `total` counts both candidates. -/
theorem C3_counterexample :
    search stEx retrEx stemId { q := some "kit", categoryId := .int 0 } = .ok [2, 1] 2 ∧
    categoryOf stEx 2 ≠ some 0 := by
  constructor
  · with_unfolding_all decide
  · decide

/-! ### The project diversifier -/

theorem takeCat_cons_skip (seen : List Int) (x : Int × ℚ) (xs : List (Int × ℚ))
    (hx : seen.contains x.1 = true) :
    takeCat seen (x :: xs) = takeCat seen xs := by
  simp only [takeCat, if_pos hx]

theorem takeCat_cons_emit (seen : List Int) (x : Int × ℚ) (xs : List (Int × ℚ))
    (hx : ¬ seen.contains x.1 = true) :
    takeCat seen (x :: xs) =
      (x :: (takeCat (x.1 :: seen) xs).1, (takeCat (x.1 :: seen) xs).2) := by
  simp only [takeCat, if_neg hx]

theorem takeCat_fst_sublist (seen : List Int) (items : List (Int × ℚ)) :
    (takeCat seen items).1.Sublist items := by
  induction items generalizing seen with
  | nil => exact List.Sublist.refl _
  | cons x xs ih =>
    by_cases hx : seen.contains x.1 = true
    · rw [takeCat_cons_skip seen x xs hx]
      exact (ih seen).cons x
    · rw [takeCat_cons_emit seen x xs hx]
      exact (ih (x.1 :: seen)).cons₂ x

theorem takeCat_seen_mem (seen : List Int) (items : List (Int × ℚ)) (a : Int) :
    a ∈ (takeCat seen items).2 ↔ a ∈ (takeCat seen items).1.map Prod.fst ∨ a ∈ seen := by
  induction items generalizing seen with
  | nil => simp [takeCat]
  | cons x xs ih =>
    by_cases hx : seen.contains x.1 = true
    · rw [takeCat_cons_skip seen x xs hx]
      exact ih seen
    · rw [takeCat_cons_emit seen x xs hx]
      rw [ih (x.1 :: seen)]
      simp only [List.map_cons, List.mem_cons]
      tauto

theorem takeCat_fresh_nodup (seen : List Int) (items : List (Int × ℚ)) :
    (∀ a ∈ (takeCat seen items).1.map Prod.fst, a ∉ seen) ∧
    ((takeCat seen items).1.map Prod.fst).Nodup := by
  induction items generalizing seen with
  | nil => simp [takeCat]
  | cons x xs ih =>
    by_cases hx : seen.contains x.1 = true
    · rw [takeCat_cons_skip seen x xs hx]
      exact ih seen
    · rw [takeCat_cons_emit seen x xs hx]
      obtain ⟨fresh, nodup⟩ := ih (x.1 :: seen)
      have hxs : x.1 ∉ seen := by simpa using hx
      constructor
      · intro a ha
        simp only [List.map_cons, List.mem_cons] at ha
        rcases ha with rfl | ha
        · exact hxs
        · intro hsa
          exact fresh a ha (List.mem_cons_of_mem _ hsa)
      · simp only [List.map_cons, List.nodup_cons]
        exact ⟨fun hmem => fresh x.1 hmem (List.mem_cons_self _ _), nodup⟩

theorem takeCat_of_fresh (seen : List Int) (items : List (Int × ℚ))
    (hfresh : ∀ x ∈ items, x.1 ∉ seen) (hnd : (items.map Prod.fst).Nodup) :
    (takeCat seen items).1 = items := by
  induction items generalizing seen with
  | nil => rfl
  | cons x xs ih =>
    have hx : ¬ seen.contains x.1 = true := by
      simpa using hfresh x (List.mem_cons_self x xs)
    rw [takeCat_cons_emit seen x xs hx]
    simp only [List.map_cons, List.nodup_cons] at hnd
    show x :: (takeCat (x.1 :: seen) xs).1 = x :: xs
    rw [ih (x.1 :: seen) ?_ hnd.2]
    intro y hy
    simp only [List.mem_cons]
    rintro (h | h)
    · exact hnd.1 (h ▸ List.mem_map_of_mem Prod.fst hy)
    · exact hfresh y (List.mem_cons_of_mem _ hy) h

theorem walkCats_cons (b : Int → List (Int × ℚ)) (seen : List Int) (c : Int)
    (cs : List Int) :
    walkCats b seen (c :: cs) =
      ((takeCat seen ((b c).take MAX_ITEMS_PER_CATEGORY)).1 ++
        (walkCats b (takeCat seen ((b c).take MAX_ITEMS_PER_CATEGORY)).2 cs).1,
       (walkCats b (takeCat seen ((b c).take MAX_ITEMS_PER_CATEGORY)).2 cs).2) := by
  simp only [walkCats]

theorem walkCats_cons_fst (b : Int → List (Int × ℚ)) (seen : List Int) (c : Int)
    (cs : List Int) :
    (walkCats b seen (c :: cs)).1 =
      (takeCat seen ((b c).take MAX_ITEMS_PER_CATEGORY)).1 ++
        (walkCats b (takeCat seen ((b c).take MAX_ITEMS_PER_CATEGORY)).2 cs).1 := by
  rw [walkCats_cons]

theorem walkCats_append (b : Int → List (Int × ℚ)) (seen : List Int) (cs ds : List Int) :
    walkCats b seen (cs ++ ds) =
      ((walkCats b seen cs).1 ++ (walkCats b (walkCats b seen cs).2 ds).1,
       (walkCats b (walkCats b seen cs).2 ds).2) := by
  induction cs generalizing seen with
  | nil => simp [walkCats]
  | cons c cs ih =>
    rw [List.cons_append, walkCats_cons, walkCats_cons, ih, List.append_assoc]

theorem walkTiers_eq_flatten (b : Int → List (Int × ℚ)) (seen : List Int)
    (gs : List (List Int)) :
    walkTiers b seen gs = walkCats b seen gs.flatten := by
  induction gs generalizing seen with
  | nil => rfl
  | cons g gs ih =>
    rw [List.flatten_cons, walkCats_append]
    simp only [walkTiers, ih]

theorem walkCats_seen_mem (b : Int → List (Int × ℚ)) (seen : List Int) (cats : List Int)
    (a : Int) :
    a ∈ (walkCats b seen cats).2 ↔ a ∈ (walkCats b seen cats).1.map Prod.fst ∨ a ∈ seen := by
  induction cats generalizing seen with
  | nil => simp [walkCats]
  | cons c cs ih =>
    rw [walkCats_cons]
    show a ∈ (walkCats b _ cs).2 ↔ _
    rw [ih, takeCat_seen_mem]
    simp only [List.map_append, List.mem_append]
    tauto

theorem walkCats_mem (b : Int → List (Int × ℚ)) (seen : List Int) (cats : List Int)
    (x : Int × ℚ) (hx : x ∈ (walkCats b seen cats).1) :
    ∃ c ∈ cats, x ∈ (b c).take MAX_ITEMS_PER_CATEGORY := by
  induction cats generalizing seen with
  | nil => simp [walkCats] at hx
  | cons c cs ih =>
    rw [walkCats_cons] at hx
    rcases List.mem_append.mp hx with hx' | hx'
    · exact ⟨c, List.mem_cons_self c cs, (takeCat_fst_sublist _ _).subset hx'⟩
    · obtain ⟨c', hc', hmem⟩ := ih _ hx'
      exact ⟨c', List.mem_cons_of_mem _ hc', hmem⟩

theorem walkCats_fresh_nodup (b : Int → List (Int × ℚ)) (seen : List Int)
    (cats : List Int) :
    (∀ a ∈ (walkCats b seen cats).1.map Prod.fst, a ∉ seen) ∧
    ((walkCats b seen cats).1.map Prod.fst).Nodup := by
  induction cats generalizing seen with
  | nil => simp [walkCats]
  | cons c cs ih =>
    obtain ⟨fr_e, nd_e⟩ := takeCat_fresh_nodup seen ((b c).take MAX_ITEMS_PER_CATEGORY)
    obtain ⟨fr_r, nd_r⟩ := ih (takeCat seen ((b c).take MAX_ITEMS_PER_CATEGORY)).2
    rw [walkCats_cons]
    constructor
    · intro a ha
      simp only [List.map_append, List.mem_append] at ha
      rcases ha with ha | ha
      · exact fr_e a ha
      · intro hs
        exact fr_r a ha ((takeCat_seen_mem _ _ _).mpr (Or.inr hs))
    · simp only [List.map_append]
      rw [List.nodup_append]
      refine ⟨nd_e, nd_r, ?_⟩
      intro a hae har
      exact fr_r a har ((takeCat_seen_mem _ _ _).mpr (Or.inl hae))

theorem mem_bucket {catOf : Int → Option Int} {l : List (Int × ℚ)} {c : Int}
    {x : Int × ℚ} (hx : x ∈ bucket catOf l c) : catOf x.1 = some c := by
  have hx' : x ∈ l.filter (fun r => catOf r.1 == some c) := hx
  have h2 := (List.mem_filter.mp hx').2
  exact beq_iff_eq.mp h2

theorem bucket_sublist (catOf : Int → Option Int) (l : List (Int × ℚ)) (c : Int) :
    (bucket catOf l c).Sublist l := List.filter_sublist l

theorem walkCats_filter_cat (catOf : Int → Option Int) (l : List (Int × ℚ))
    (seen : List Int) (cats : List Int) (c : Int) (hnd : cats.Nodup) :
    ((walkCats (bucket catOf l) seen cats).1.filter (fun x => catOf x.1 == some c)).Sublist
      ((bucket catOf l c).take MAX_ITEMS_PER_CATEGORY) := by
  induction cats generalizing seen with
  | nil =>
    simp only [walkCats, List.filter_nil]
    exact List.nil_sublist _
  | cons c' cs ih =>
    rw [List.nodup_cons] at hnd
    rw [walkCats_cons_fst, List.filter_append]
    by_cases hc : c' = c
    · subst hc
      have he : ((takeCat seen ((bucket catOf l c').take MAX_ITEMS_PER_CATEGORY)).1.filter
          (fun x => catOf x.1 == some c')) =
          (takeCat seen ((bucket catOf l c').take MAX_ITEMS_PER_CATEGORY)).1 := by
        rw [List.filter_eq_self]
        intro a ha
        exact beq_iff_eq.mpr (mem_bucket ((List.take_sublist _ _).subset
          ((takeCat_fst_sublist _ _).subset ha)))
      have hr : ((walkCats (bucket catOf l)
          (takeCat seen ((bucket catOf l c').take MAX_ITEMS_PER_CATEGORY)).2 cs).1.filter
          (fun x => catOf x.1 == some c')) = [] := by
        rw [List.filter_eq_nil_iff]
        intro a ha
        obtain ⟨c'', hc'', hmem⟩ := walkCats_mem _ _ _ a ha
        have hcat : catOf a.1 = some c'' :=
          mem_bucket ((List.take_sublist _ _).subset hmem)
        simp only [hcat, beq_iff_eq, Option.some.injEq]
        intro heq
        exact hnd.1 (heq ▸ hc'')
      rw [he, hr, List.append_nil]
      exact takeCat_fst_sublist _ _
    · have he : ((takeCat seen ((bucket catOf l c').take MAX_ITEMS_PER_CATEGORY)).1.filter
          (fun x => catOf x.1 == some c)) = [] := by
        rw [List.filter_eq_nil_iff]
        intro a ha
        have hcat : catOf a.1 = some c' := mem_bucket ((List.take_sublist _ _).subset
          ((takeCat_fst_sublist _ _).subset ha))
        simp only [hcat, beq_iff_eq, Option.some.injEq]
        exact hc
      rw [he, List.nil_append]
      exact ih _ hnd.2

theorem walkCats_full (catOf : Int → Option Int) (l : List (Int × ℚ)) (seen : List Int)
    (cats : List Int) (hnd : (l.map Prod.fst).Nodup) (hcats : cats.Nodup)
    (hseen : ∀ a ∈ seen, ∀ c ∈ cats, catOf a ≠ some c) :
    (walkCats (bucket catOf l) seen cats).1 =
      cats.flatMap (fun c => (bucket catOf l c).take MAX_ITEMS_PER_CATEGORY) := by
  induction cats generalizing seen with
  | nil => rfl
  | cons c cs ih =>
    rw [List.nodup_cons] at hcats
    have hfull : (takeCat seen ((bucket catOf l c).take MAX_ITEMS_PER_CATEGORY)).1 =
        (bucket catOf l c).take MAX_ITEMS_PER_CATEGORY := by
      apply takeCat_of_fresh
      · intro x hx hxs
        exact hseen x.1 hxs c (List.mem_cons_self c cs)
          (mem_bucket ((List.take_sublist _ _).subset hx))
      · exact List.Nodup.sublist
          (List.Sublist.map Prod.fst ((List.take_sublist _ _).trans (List.filter_sublist _)))
          hnd
    have hseen' : ∀ a ∈ (takeCat seen ((bucket catOf l c).take MAX_ITEMS_PER_CATEGORY)).2,
        ∀ c' ∈ cs, catOf a ≠ some c' := by
      intro a ha c' hc' hcat
      rcases (takeCat_seen_mem _ _ _).mp ha with hpid | hs
      · obtain ⟨x, hx, rfl⟩ := List.mem_map.mp hpid
        have hcx : catOf x.1 = some c :=
          mem_bucket ((List.take_sublist _ _).subset ((takeCat_fst_sublist _ _).subset hx))
        rw [hcx] at hcat
        exact hcats.1 ((Option.some.injEq _ _ ▸ hcat : c = c') ▸ hc')
      · exact hseen a hs c' (List.mem_cons_of_mem _ hc') hcat
    rw [walkCats_cons_fst, List.flatMap_cons, hfull, ih _ hcats.2 hseen']

/-- C5 — the diversifier walks the tiers of `PROJECT_CATEGORY_ORDER` in
order, groups in given order, category ids in given order, and from each
category's bucket emits at most `MAX_ITEMS_PER_CATEGORY = 2` not-yet-seen
candidates in bucket order: for every category `c` the category-`c` entries
of the curated head form a sublist of the first two entries of `c`'s
bucket.  In particular, for candidates with pairwise-distinct ids spanning
categories 1, 4, 6 and 7 (at least two candidates in each of 1 and 4), the
first six emitted items are the top two of category 1, then the top two of
category 4, then the first two produced by the `[6, 7]` group — all ahead
of every bucket's third-ranked item, which can only appear in the appended
remainder. -/
theorem C5_tier_walk (catOf : Int → Option Int) (l : List (Int × ℚ)) (c : Int) :
    MAX_ITEMS_PER_CATEGORY = 2 ∧
    (((diversifyHead catOf l).1.filter (fun x => catOf x.1 == some c)).Sublist
      ((bucket catOf l c).take MAX_ITEMS_PER_CATEGORY)) ∧
    ((l.map Prod.fst).Nodup →
      2 ≤ (bucket catOf l 1).length → 2 ≤ (bucket catOf l 4).length →
      bucket catOf l 6 ≠ [] → bucket catOf l 7 ≠ [] →
      (diversify catOf l).take 6 =
        (bucket catOf l 1).take MAX_ITEMS_PER_CATEGORY ++
          (bucket catOf l 4).take MAX_ITEMS_PER_CATEGORY ++
          ((bucket catOf l 6).take MAX_ITEMS_PER_CATEGORY ++
            (bucket catOf l 7).take MAX_ITEMS_PER_CATEGORY).take 2) := by
  refine ⟨rfl, ?_, ?_⟩
  · rw [diversifyHead, walkTiers_eq_flatten]
    exact walkCats_filter_cat catOf l [] PROJECT_CATEGORY_ORDER.flatten c (by decide)
  · intro hnd h1 h4 h6 h7
    have hfl : PROJECT_CATEGORY_ORDER.flatten = [1, 4, 6, 7, 2, 3, 8, 9, 10, 11, 5, 12, 13, 14] := by
      decide
    have hhead : (diversifyHead catOf l).1 =
        List.flatMap [1, 4, 6, 7, 2, 3, 8, 9, 10, 11, 5, 12, 13, 14]
          (fun c => (bucket catOf l c).take MAX_ITEMS_PER_CATEGORY) := by
      rw [diversifyHead, walkTiers_eq_flatten,
        walkCats_full catOf l [] PROJECT_CATEGORY_ORDER.flatten hnd (by decide) (by simp),
        hfl]
    have lB1 : ((bucket catOf l 1).take MAX_ITEMS_PER_CATEGORY).length = 2 := by
      rw [List.length_take]
      simp only [MAX_ITEMS_PER_CATEGORY]
      exact min_eq_left h1
    have lB4 : ((bucket catOf l 4).take MAX_ITEMS_PER_CATEGORY).length = 2 := by
      rw [List.length_take]
      simp only [MAX_ITEMS_PER_CATEGORY]
      exact min_eq_left h4
    have lB67 : 2 ≤ ((bucket catOf l 6).take MAX_ITEMS_PER_CATEGORY ++
        (bucket catOf l 7).take MAX_ITEMS_PER_CATEGORY).length := by
      rw [List.length_append, List.length_take, List.length_take]
      simp only [MAX_ITEMS_PER_CATEGORY]
      have h6' : 0 < (bucket catOf l 6).length := List.length_pos.mpr h6
      have h7' : 0 < (bucket catOf l 7).length := List.length_pos.mpr h7
      omega
    have tk6 : ∀ Z : List (Int × ℚ),
        ((bucket catOf l 1).take MAX_ITEMS_PER_CATEGORY ++ Z).take 6 =
          (bucket catOf l 1).take MAX_ITEMS_PER_CATEGORY ++ Z.take 4 := by
      intro Z
      rw [List.take_append_eq_append_take,
        List.take_of_length_le (by rw [lB1]; norm_num), lB1]
    have tk4 : ∀ Z : List (Int × ℚ),
        ((bucket catOf l 4).take MAX_ITEMS_PER_CATEGORY ++ Z).take 4 =
          (bucket catOf l 4).take MAX_ITEMS_PER_CATEGORY ++ Z.take 2 := by
      intro Z
      rw [List.take_append_eq_append_take,
        List.take_of_length_le (by rw [lB4]; norm_num), lB4]
    have tk2 : ∀ Z : List (Int × ℚ),
        (((bucket catOf l 6).take MAX_ITEMS_PER_CATEGORY ++
            (bucket catOf l 7).take MAX_ITEMS_PER_CATEGORY) ++ Z).take 2 =
          ((bucket catOf l 6).take MAX_ITEMS_PER_CATEGORY ++
            (bucket catOf l 7).take MAX_ITEMS_PER_CATEGORY).take 2 := by
      intro Z
      rw [List.take_append_eq_append_take, Nat.sub_eq_zero_of_le lB67, List.take_zero,
        List.append_nil]
    have hdiv : diversify catOf l =
        (diversifyHead catOf l).1 ++
          l.filter (fun r => !(diversifyHead catOf l).2.contains r.1) := rfl
    rw [hdiv, hhead]
    simp only [List.flatMap_cons, List.flatMap_nil, List.append_nil, List.append_assoc]
    rw [tk6, tk4, ← List.append_assoc ((bucket catOf l 6).take MAX_ITEMS_PER_CATEGORY)
      ((bucket catOf l 7).take MAX_ITEMS_PER_CATEGORY), tk2]

/-- Witness for C5 at the concrete candidate list `lDiv` spanning
categories 1, 4, 6, 7: the head's category-1 entries are among the top two
of bucket 1, and the first six emitted items are top-2 of category 1, then
top-2 of category 4, then the first two items of the `[6, 7]` group. -/
theorem C5_witness :
    (((diversifyHead catOfDiv lDiv).1.filter (fun x => catOfDiv x.1 == some 1)).Sublist
      ((bucket catOfDiv lDiv 1).take MAX_ITEMS_PER_CATEGORY)) ∧
    (diversify catOfDiv lDiv).take 6 =
      (bucket catOfDiv lDiv 1).take MAX_ITEMS_PER_CATEGORY ++
        (bucket catOfDiv lDiv 4).take MAX_ITEMS_PER_CATEGORY ++
        ((bucket catOfDiv lDiv 6).take MAX_ITEMS_PER_CATEGORY ++
          (bucket catOfDiv lDiv 7).take MAX_ITEMS_PER_CATEGORY).take 2 :=
  ⟨(C5_tier_walk catOfDiv lDiv 1).2.1,
   (C5_tier_walk catOfDiv lDiv 1).2.2 (by decide) (by decide) (by decide)
     (by decide) (by decide)⟩

/-- C6 — on input with pairwise-distinct product ids the diversifier's
output is a permutation of its input: same length, same multiset of
`(productId, finalScore)` pairs; the output is the curated head followed by
the remainder, the remainder preserves the input's `finalScore` order (it
is a sublist of the input), and every head element's category belongs to
some tier of `PROJECT_CATEGORY_ORDER` — a category absent from every tier
surfaces only in the remainder. -/
theorem C6_diversifier_permutation (catOf : Int → Option Int) (l : List (Int × ℚ))
    (hnd : (l.map Prod.fst).Nodup) :
    (diversify catOf l).Perm l ∧
    (diversify catOf l).length = l.length ∧
    diversify catOf l =
      (diversifyHead catOf l).1 ++
        l.filter (fun r => !(diversifyHead catOf l).2.contains r.1) ∧
    (l.filter (fun r => !(diversifyHead catOf l).2.contains r.1)).Sublist l ∧
    (∀ x ∈ (diversifyHead catOf l).1, ∃ g ∈ PROJECT_CATEGORY_ORDER, ∃ c ∈ g,
      catOf x.1 = some c) := by
  have hH : (diversifyHead catOf l).1 =
      (walkCats (bucket catOf l) [] PROJECT_CATEGORY_ORDER.flatten).1 := by
    rw [diversifyHead, walkTiers_eq_flatten]
  have hS : (diversifyHead catOf l).2 =
      (walkCats (bucket catOf l) [] PROJECT_CATEGORY_ORDER.flatten).2 := by
    rw [diversifyHead, walkTiers_eq_flatten]
  have hmemS : ∀ a : Int, a ∈ (diversifyHead catOf l).2 ↔
      a ∈ (diversifyHead catOf l).1.map Prod.fst := by
    intro a
    rw [hH, hS, walkCats_seen_mem]
    simp
  have hpidsnd : ((diversifyHead catOf l).1.map Prod.fst).Nodup := by
    rw [hH]
    exact (walkCats_fresh_nodup _ _ _).2
  have hHl : ∀ x ∈ (diversifyHead catOf l).1, x ∈ l := by
    intro x hx
    rw [hH] at hx
    obtain ⟨c, _, hmem⟩ := walkCats_mem _ _ _ x hx
    exact (bucket_sublist catOf l c).subset ((List.take_sublist _ _).subset hmem)
  have hHnd : (diversifyHead catOf l).1.Nodup := List.Nodup.of_map _ hpidsnd
  have lnd : l.Nodup := List.Nodup.of_map _ hnd
  have hperm : (diversifyHead catOf l).1.Perm
      (l.filter (fun r => (diversifyHead catOf l).2.contains r.1)) := by
    rw [List.perm_ext_iff_of_nodup hHnd (List.Nodup.filter _ lnd)]
    intro x
    rw [List.mem_filter]
    constructor
    · intro hx
      refine ⟨hHl x hx, ?_⟩
      have hp : x.1 ∈ (diversifyHead catOf l).1.map Prod.fst := List.mem_map_of_mem _ hx
      have hxS : x.1 ∈ (diversifyHead catOf l).2 := (hmemS x.1).mpr hp
      simpa using hxS
    · rintro ⟨hxl, hxc⟩
      have hxS : x.1 ∈ (diversifyHead catOf l).2 := by simpa using hxc
      have hpid : x.1 ∈ (diversifyHead catOf l).1.map Prod.fst := (hmemS x.1).mp hxS
      obtain ⟨y, hy, hyx⟩ := List.mem_map.mp hpid
      have hyl : y ∈ l := hHl y hy
      have hxy : y = x := List.inj_on_of_nodup_map hnd hyl hxl hyx
      exact hxy ▸ hy
  have hdiv : diversify catOf l =
      (diversifyHead catOf l).1 ++
        l.filter (fun r => !(diversifyHead catOf l).2.contains r.1) := rfl
  have hperm2 : (diversify catOf l).Perm l := by
    rw [hdiv]
    exact (hperm.append_right _).trans (List.filter_append_perm _ l)
  refine ⟨hperm2, hperm2.length_eq, hdiv, List.filter_sublist l, ?_⟩
  intro x hx
  rw [hH] at hx
  obtain ⟨c, hc, hmem⟩ := walkCats_mem _ _ _ x hx
  obtain ⟨g, hg, hcg⟩ := List.mem_flatten.mp hc
  exact ⟨g, hg, c, hcg, mem_bucket ((List.take_sublist _ _).subset hmem)⟩

/-- Witness for C6 at the concrete candidate list `lDiv` (distinct ids):
the diversified output is a permutation of the input of equal length. -/
theorem C6_witness :
    (diversify catOfDiv lDiv).Perm lDiv ∧
    (diversify catOfDiv lDiv).length = lDiv.length := by
  have h := C6_diversifier_permutation catOfDiv lDiv (by decide)
  exact ⟨h.1, h.2.1⟩

end SemanticSearch
